import Mathlib

/-!
Verification of the smartcli backend (Python) against its specification.

The Python modules under `backend/` are shallowly embedded here:
strings are `List Char`, float arithmetic is modelled over `ℚ`,
dictionaries are structures, exceptions are `Except` / explicit flags.
Python's stable `sorted(..., key=..., reverse=True)` is modelled by an
insertion sort that is proved to be a stable descending sort.
-/

namespace SmartCli

/-- Shell commands, queries and messages are modelled as lists of characters. -/
abbrev Str := List Char

/-- Embedding vectors (`float32` arrays in the code) are modelled over `ℚ`. -/
abbrev Vec := List ℚ

/-! ## Stable sorting, modelling Python's `sorted(..., key=k, reverse=True)`
and `list.sort(key=k, reverse=True)`.

Python's sort is specified as a stable sort; with `reverse=True` it orders by
descending key and elements with equal keys keep their original relative
order.  The insertion sort below realises exactly that specification (proofs
follow), so it is a faithful model of the library routine. -/

/-- Insert `x` into `l`, placing it before the first element whose key is
not larger than `key x`.  Helper for `sortDescBy`. -/
def insertDescBy (key : α → ℚ) (x : α) : List α → List α
  | [] => [x]
  | y :: ys => if key y ≤ key x then x :: y :: ys else y :: insertDescBy key x ys

/-- Stable descending insertion sort by a rational key. -/
def sortDescBy (key : α → ℚ) : List α → List α
  | [] => []
  | x :: xs => insertDescBy key x (sortDescBy key xs)

/-- Insert `x` into `l`, placing it before the first element whose key is
not smaller than `key x`.  Helper for `sortAscBy`. -/
def insertAscBy (key : α → ℚ) (x : α) : List α → List α
  | [] => [x]
  | y :: ys => if key x ≤ key y then x :: y :: ys else y :: insertAscBy key x ys

/-- Stable ascending insertion sort by a rational key (used for the
distance ordering returned by a FAISS flat index). -/
def sortAscBy (key : α → ℚ) : List α → List α
  | [] => []
  | x :: xs => insertAscBy key x (sortAscBy key xs)

theorem insertDescBy_perm (key : α → ℚ) (x : α) (l : List α) :
    (insertDescBy key x l).Perm (x :: l) := by
  induction l with
  | nil => simp [insertDescBy]
  | cons y ys ih =>
    by_cases h : key y ≤ key x
    · simp [insertDescBy, h]
    · simp only [insertDescBy, h, if_neg]
      exact ((ih.cons y).trans (List.Perm.swap x y ys))

theorem sortDescBy_perm (key : α → ℚ) (l : List α) :
    (sortDescBy key l).Perm l := by
  induction l with
  | nil => simp [sortDescBy]
  | cons x xs ih =>
    exact (insertDescBy_perm key x (sortDescBy key xs)).trans (ih.cons x)

theorem mem_insertDescBy {key : α → ℚ} {x a : α} {l : List α} :
    a ∈ insertDescBy key x l ↔ a = x ∨ a ∈ l := by
  rw [(insertDescBy_perm key x l).mem_iff, List.mem_cons]

/-- Inserting an element that the relation `Q` puts after every present
element preserves the sortedness-with-stability invariant. -/
theorem insertDescBy_pairwise {key : α → ℚ} {Q : α → α → Prop} {x : α} {l : List α}
    (hl : l.Pairwise (fun a b => key b < key a ∨ (key a = key b ∧ Q a b)))
    (hx : ∀ y ∈ l, Q x y) :
    (insertDescBy key x l).Pairwise
      (fun a b => key b < key a ∨ (key a = key b ∧ Q a b)) := by
  induction l with
  | nil => simp [insertDescBy]
  | cons y ys ih =>
    rcases List.pairwise_cons.1 hl with ⟨hy, hys⟩
    by_cases h : key y ≤ key x
    · simp only [insertDescBy]
      rw [if_pos h]
      refine List.pairwise_cons.2 ⟨?_, hl⟩
      intro b hb
      have hQb : Q x b := hx b hb
      rcases List.mem_cons.1 hb with rfl | hbmem
      · rcases eq_or_lt_of_le h with heq | hlt
        · exact Or.inr ⟨heq.symm, hQb⟩
        · exact Or.inl hlt
      · rcases hy b hbmem with hlt | ⟨heq, _⟩
        · exact Or.inl (lt_of_lt_of_le hlt h)
        · rcases eq_or_lt_of_le h with heq2 | hlt2
          · exact Or.inr ⟨heq2.symm.trans heq, hQb⟩
          · exact Or.inl (by rw [← heq]; exact hlt2)
    · simp only [insertDescBy]
      rw [if_neg h]
      refine List.pairwise_cons.2
        ⟨?_, ih hys (fun z hz => hx z (List.mem_cons_of_mem y hz))⟩
      intro b hb
      rcases mem_insertDescBy.1 hb with rfl | hbmem
      · exact Or.inl (lt_of_not_le h)
      · exact hy b hbmem

/-- The stable descending sort is sorted by descending key, and elements
with equal keys keep any relation `Q` that held pairwise in the input
(in particular, original order expressed through indices). -/
theorem sortDescBy_pairwise {key : α → ℚ} {Q : α → α → Prop} {l : List α}
    (hl : l.Pairwise Q) :
    (sortDescBy key l).Pairwise
      (fun a b => key b < key a ∨ (key a = key b ∧ Q a b)) := by
  induction l with
  | nil => simp [sortDescBy]
  | cons x xs ih =>
    rw [List.pairwise_cons] at hl
    refine insertDescBy_pairwise (ih hl.2) ?_
    intro y hy
    exact hl.1 y ((sortDescBy_perm key xs).mem_iff.1 hy)

/-! ## Retriever (`backend/retriever.py`)

State of a `Retriever` object: the FAISS index is modelled as the list of
stored vectors (`None` before any build/load), `commands` is the parallel
list of command strings, and the metadata dictionary is a record of
optional fields (a missing field models an absent dictionary key). -/

/-- Errors raised by the retriever: `ValueError` for an empty build,
`RuntimeError` for searching with no index. -/
inductive RErr where
  | inputError
  | stateError
deriving DecidableEq, Repr

/-- The `self.metadata` dictionary; `none` fields model missing keys
(the dictionary starts out empty). -/
structure MetaD where
  numCommands : Option ℕ
  dimension : Option ℕ
  indexType : Option Str
deriving DecidableEq, Repr

/-- The mutable state of a `Retriever` object. -/
structure Retriever where
  index : Option (List Vec)
  commands : List Str
  metadata : MetaD
deriving DecidableEq, Repr

/-- `Retriever.__init__`: no index, no commands, empty metadata. -/
def initRetriever : Retriever := ⟨none, [], ⟨none, none, none⟩⟩

/-- `Embedder.get_embedding_dim()` returns 384 (MiniLM-L6-v2). -/
def embeddingDim : ℕ := 384

/-- Squared Euclidean distance between two vectors. -/
def l2sq (u v : Vec) : ℚ := ((u.zip v).map (fun p => (p.1 - p.2) ^ 2)).sum

/-- Squared Euclidean norm of a vector. -/
def sqNorm (v : Vec) : ℚ := (v.map (fun x => x ^ 2)).sum

/-- `Retriever.build_index(commands)`: raise `ValueError` on an empty list,
otherwise replace the index with one vector per command (the embedder
returns one embedding per input text) and reset commands and metadata.
The result pairs the call's outcome with the object state afterwards. -/
def buildIndex (emb : Str → Vec) (cmds : List Str) (st : Retriever) :
    Except RErr Unit × Retriever :=
  if cmds.isEmpty then (.error .inputError, st)
  else
    let embeddings := cmds.map emb
    (.ok (), { index := some embeddings, commands := cmds,
               metadata := ⟨some cmds.length, some embeddingDim,
                            some ("IndexFlatL2".toList)⟩ })

/-- `Retriever.add_commands(new_commands)`: no-op on an empty list; build
from scratch when no index exists; otherwise append the new vectors and
commands and refresh the `num_commands` metadata entry. -/
def addCommands (emb : Str → Vec) (newCmds : List Str) (st : Retriever) :
    Except RErr Unit × Retriever :=
  if newCmds.isEmpty then (.ok (), st)
  else
    let newEmbs := newCmds.map emb
    match st.index with
    | none => buildIndex emb newCmds st
    | some vecs =>
      (.ok (), { st with
        index := some (vecs ++ newEmbs),
        commands := st.commands ++ newCmds,
        metadata := { st.metadata with
          numCommands := some (st.commands ++ newCmds).length } })

/-- The parsed content of the JSON sidecar file: `none` fields model a
missing `commands` or `metadata` key (a `KeyError` when accessed). -/
structure SidecarData where
  commands : Option (List Str)
  metadata : Option MetaD
deriving DecidableEq, Repr

/-- What `load_index` finds on disk: whether both files exist, the result
of `faiss.read_index` (`none` = raised), and the parsed sidecar JSON
(`none` = `json.load` raised). -/
structure LoadInput where
  filesExist : Bool
  indexData : Option (List Vec)
  sidecar : Option SidecarData
deriving DecidableEq, Repr

/-- `Retriever.load_index()`: returns a success flag and never raises.
Mutations happen in the order of the Python statements, so a failure
after `faiss.read_index` succeeded leaves the new index in place while
later assignments are skipped. -/
def loadIndex (st : Retriever) (inp : LoadInput) : Bool × Retriever :=
  if !inp.filesExist then (false, st)
  else
    match inp.indexData with
    | none => (false, st)
    | some vecs =>
      let st1 := { st with index := some vecs }
      match inp.sidecar with
      | none => (false, st1)
      | some side =>
        match side.commands with
        | none => (false, st1)
        | some cmds =>
          let st2 := { st1 with commands := cmds }
          match side.metadata with
          | none => (false, st2)
          | some m => (true, { st2 with metadata := m })

/-- One entry of the list returned by `Retriever.search`. -/
structure SearchResult where
  command : Str
  score : ℚ
  rank : ℕ
deriving DecidableEq, Repr

/-- The score conversion in `Retriever.search`:
`similarities = 1 - (distances[0] ** 2 / 2)`.  `distances` is what
`faiss.IndexFlatL2.search` returns, and a FAISS L2 flat index returns
squared Euclidean distances, so the argument here is already `d²`. -/
def codeSimilarity (sqd : ℚ) : ℚ := 1 - sqd ^ 2 / 2

/-- `faiss.IndexFlatL2.search`: squared Euclidean distances of the query
to every stored vector, the `k` closest returned in ascending order of
distance as (vector id, squared distance) pairs. -/
def faissSearch (vecs : List Vec) (q : Vec) (k : ℕ) : List (ℕ × ℚ) :=
  let pairs := (vecs.map (fun v => l2sq q v)).enum
  (sortAscBy (fun p => p.2) pairs).take k

/-- `Retriever.search(query, k, context)`: `RuntimeError` when no index
was ever built or loaded, an empty result when the index has no vectors,
otherwise the FAISS hits converted to scored results.  `emb` models
`embed_command(query, context)`.  The guard `idx < len(self.commands)` is
the `getElem?` match. -/
def searchFn (emb : Str → Vec) (st : Retriever) (query : Str) (k : ℕ) :
    Except RErr (List SearchResult) :=
  match st.index with
  | none => .error .stateError
  | some vecs =>
    if vecs.isEmpty then .ok []
    else
      let qv := emb query
      let hits := faissSearch vecs qv k
      .ok (hits.enum.filterMap (fun pr =>
        match st.commands[pr.2.1]? with
        | some c => some ⟨c, codeSimilarity pr.2.2, pr.1⟩
        | none => none))

/-- The four retriever operations, for stating state invariants. -/
inductive Oper where
  | build (emb : Str → Vec) (cmds : List Str)
  | add (emb : Str → Vec) (cmds : List Str)
  | load (inp : LoadInput)
  | search (emb : Str → Vec) (q : Str) (k : ℕ)

/-- Run an operation; the `Bool` is `true` iff the call succeeded
(no exception, and for `load_index` a `True` return value). -/
def runOper : Oper → Retriever → Bool × Retriever
  | .build emb cmds, st =>
    let r := buildIndex emb cmds st
    (match r.1 with | .ok _ => true | .error _ => false, r.2)
  | .add emb cmds, st =>
    let r := addCommands emb cmds st
    (match r.1 with | .ok _ => true | .error _ => false, r.2)
  | .load inp, st => loadIndex st inp
  | .search emb q k, st =>
    (match searchFn emb st q k with | .ok _ => true | .error _ => false, st)

/-- The parallel-array invariant: the stored command list has exactly one
entry per indexed vector. -/
def inv (st : Retriever) : Prop :=
  ∀ vecs, st.index = some vecs → st.commands.length = vecs.length

/-- A load input is consistent when the sidecar's command list (if it
parses) has one command per vector of the index file (if it parses) —
e.g. files written by `save_index`. -/
def consistentInput : Oper → Prop
  | .load inp => ∀ vecs side cmds, inp.indexData = some vecs →
      inp.sidecar = some side → side.commands = some cmds →
      cmds.length = vecs.length
  | _ => True

/-! ## Claims about the retriever -/

/-- C6: `build_index([])` raises `ValueError` before any mutation: the
call fails with `inputError` and the state (index, commands, metadata)
is returned unchanged. -/
theorem c6_build_empty_rejected (emb : Str → Vec) (st : Retriever) :
    buildIndex emb [] st = (.error .inputError, st) := rfl

/-- C5: `search` raises a `RuntimeError` when no index was ever built or
loaded, while an existing but empty index yields a successful empty
result instead. -/
theorem c5_search_state_error (emb : Str → Vec) (st : Retriever) (q : Str) (k : ℕ) :
    (st.index = none → searchFn emb st q k = .error .stateError) ∧
    (st.index = some [] → searchFn emb st q k = .ok []) := by
  constructor
  · intro h
    simp [searchFn, h]
  · intro h
    simp [searchFn, h]

/-- A retriever whose index exists but holds zero vectors (e.g. after
loading an empty index). -/
def emptyIndexRetriever : Retriever := ⟨some [], [], ⟨none, none, none⟩⟩

/-- An arbitrary concrete embedder for witnesses. -/
def embW : Str → Vec := fun _ => [0]

/-- Witness for C5 at concrete states. -/
theorem c5_search_state_error_witness :
    (initRetriever.index = none ∧
      searchFn embW initRetriever [] 10 = .error .stateError) ∧
    (emptyIndexRetriever.index = some [] ∧
      searchFn embW emptyIndexRetriever [] 10 = .ok []) :=
  ⟨⟨rfl, (c5_search_state_error embW initRetriever [] 10).1 rfl⟩,
   ⟨rfl, (c5_search_state_error embW emptyIndexRetriever [] 10).2 rfl⟩⟩

/-- Query embedding and stored vector for the C1 evaluation: two
unit-normalized vectors pointing in opposite directions. -/
def c1Query : Vec := [1, 0]

/-- The stored vector of the single indexed command in the C1 evaluation. -/
def c1Stored : Vec := [-1, 0]

/-- A one-command index whose stored vector is `c1Stored`. -/
def c1State : Retriever := ⟨some [c1Stored], [("ls".toList)], ⟨none, none, none⟩⟩

/-- An embedder sending every query to the unit vector `c1Query`. -/
def c1Emb : Str → Vec := fun _ => c1Query

/-- C1 (code bug): for the unit-normalized query `[1,0]` and stored
vector `[-1,0]`, the squared Euclidean distance is `d² = 4`.  FAISS
returns this squared distance, and `search` squares it again, so the
returned score is `1 - (d²)²/2 = -7`, not the claimed
`1 - d²/2 = -1`; in particular the score lies outside `[-1, 1]`. -/
theorem c1_score_formula_bug :
    sqNorm c1Query = 1 ∧ sqNorm c1Stored = 1 ∧
    l2sq c1Query c1Stored = 4 ∧
    searchFn c1Emb c1State ("ls".toList) 10 = .ok [⟨("ls".toList), -7, 0⟩] ∧
    codeSimilarity (l2sq c1Query c1Stored) = -7 ∧
    1 - l2sq c1Query c1Stored / 2 = -1 ∧
    codeSimilarity (l2sq c1Query c1Stored) < -1 := by
  refine ⟨?_, ?_, ?_, ?_, ?_, ?_, ?_⟩ <;>
    norm_num [sqNorm, l2sq, codeSimilarity, c1Query, c1Stored, c1State, c1Emb,
      searchFn, faissSearch, sortAscBy, insertAscBy, List.enum,
      List.filterMap_cons, List.filterMap_nil]

/-- C2 (amended): the parallel-array invariant `len(commands) = ntotal`
holds after every successful `build_index`, `add_commands` and `search`,
and after a successful `load_index` whose on-disk data is consistent
(as files written by `save_index` are); `load_index` itself never checks
consistency. -/
theorem c2_parallel_arrays (st : Retriever) (op : Oper)
    (h1 : inv st) (h2 : consistentInput op)
    (h3 : (runOper op st).1 = true) :
    inv (runOper op st).2 := by
  cases op with
  | build emb cmds =>
    cases cmds with
    | nil => exact Bool.noConfusion h3
    | cons c cs =>
      intro w hw
      have hw' : some ((c :: cs).map emb) = some w := hw
      cases hw'
      show (c :: cs).length = ((c :: cs).map emb).length
      simp
  | add emb cmds =>
    cases cmds with
    | nil => exact fun w hw => h1 w hw
    | cons c cs =>
      cases hidx : st.index with
      | none =>
        intro w hw
        simp only [runOper, addCommands, List.isEmpty_cons, Bool.false_eq_true,
          if_false, hidx] at hw ⊢
        have hw' : some ((c :: cs).map emb) = some w := hw
        cases hw'
        show (c :: cs).length = ((c :: cs).map emb).length
        simp
      | some oldVecs =>
        intro w hw
        simp only [runOper, addCommands, List.isEmpty_cons, Bool.false_eq_true,
          if_false, hidx] at hw ⊢
        have hw' : some (oldVecs ++ (c :: cs).map emb) = some w := hw
        cases hw'
        have hlen := h1 oldVecs hidx
        simp [hlen]
  | load inp =>
    rcases inp with ⟨fe, idxd, side⟩
    cases fe with
    | false => simp [runOper, loadIndex] at h3
    | true =>
      cases idxd with
      | none => simp [runOper, loadIndex] at h3
      | some vecs =>
        cases side with
        | none => simp [runOper, loadIndex] at h3
        | some s =>
          rcases s with ⟨scmds, smeta⟩
          cases scmds with
          | none => simp [runOper, loadIndex] at h3
          | some cmds =>
            cases smeta with
            | none => simp [runOper, loadIndex] at h3
            | some m =>
              intro w hw
              have hw' : some vecs = some w := hw
              cases hw'
              exact h2 vecs ⟨some cmds, some m⟩ cmds rfl rfl rfl
  | search emb q k =>
    simpa [runOper] using h1

/-- A load input whose index file holds one vector but whose sidecar
lists two commands; both parse, so `load_index` succeeds. -/
def c2BadInput : LoadInput :=
  ⟨true, some [[1]], some ⟨some [("a".toList), ("b".toList)], some ⟨none, none, none⟩⟩⟩

/-- C2 counterexample: a successful `load_index` from inconsistent files
leaves `len(commands) = 2` against `ntotal = 1`, violating the claimed
invariant. -/
theorem c2_load_breaks_invariant :
    (loadIndex initRetriever c2BadInput).1 = true ∧
    ¬ inv (loadIndex initRetriever c2BadInput).2 := by
  refine ⟨rfl, fun h => ?_⟩
  exact absurd (h [[1]] rfl) (by decide)

/-- Witness for C2 at a concrete state and operation. -/
theorem c2_parallel_arrays_witness :
    inv initRetriever ∧ consistentInput (Oper.build embW [("a".toList)]) ∧
    (runOper (Oper.build embW [("a".toList)]) initRetriever).1 = true ∧
    inv (runOper (Oper.build embW [("a".toList)]) initRetriever).2 :=
  ⟨fun _ h => Option.noConfusion h, trivial, rfl,
   c2_parallel_arrays initRetriever (Oper.build embW [("a".toList)])
     (fun _ h => Option.noConfusion h) trivial rfl⟩

/-- C7 (amended): `load_index` returns a flag and never raises; when the
files are missing or the index file fails to parse the state is
untouched, but when the index file parses and a later step fails, the
new index (and, further on, the new commands) are kept — the retriever
does not roll back to the "no index available" state. -/
theorem c7_load_failure_modes (st : Retriever) (inp : LoadInput) :
    (inp.filesExist = false → loadIndex st inp = (false, st)) ∧
    (inp.indexData = none → loadIndex st inp = (false, st)) ∧
    (∀ vecs, inp.filesExist = true → inp.indexData = some vecs →
      (inp.sidecar = none ∨ ∃ side, inp.sidecar = some side ∧ side.commands = none) →
      loadIndex st inp = (false, { st with index := some vecs })) ∧
    (∀ vecs side cmds, inp.filesExist = true → inp.indexData = some vecs →
      inp.sidecar = some side → side.commands = some cmds → side.metadata = none →
      loadIndex st inp = (false, { st with index := some vecs, commands := cmds })) ∧
    (∀ vecs side cmds m, inp.filesExist = true → inp.indexData = some vecs →
      inp.sidecar = some side → side.commands = some cmds → side.metadata = some m →
      loadIndex st inp = (true,
        { st with index := some vecs, commands := cmds, metadata := m })) := by
  rcases inp with ⟨fe, idxd, side⟩
  refine ⟨?_, ?_, ?_, ?_, ?_⟩
  · rintro rfl
    rfl
  · rintro rfl
    cases fe <;> rfl
  · rintro vecs rfl rfl (rfl | ⟨s, rfl, hs⟩)
    · rfl
    · rcases s with ⟨sc, sm⟩
      cases hs
      rfl
  · rintro vecs s cmds rfl rfl rfl hc hm
    rcases s with ⟨sc, sm⟩
    cases hc
    cases hm
    rfl
  · rintro vecs s cmds m rfl rfl rfl hc hm
    rcases s with ⟨sc, sm⟩
    cases hc
    cases hm
    rfl

/-- A load input where the index file parses but the sidecar JSON does
not. -/
def c7BadInput : LoadInput := ⟨true, some [[1]], none⟩

/-- C7 counterexample: when the sidecar fails after the index file was
read, `load_index` returns `False` but the retriever keeps the freshly
read index — it is not in the "no index available" state and the state
differs from the pre-call state. -/
theorem c7_partial_load_state :
    (loadIndex initRetriever c7BadInput).1 = false ∧
    (loadIndex initRetriever c7BadInput).2.index = some [[1]] ∧
    (loadIndex initRetriever c7BadInput).2 ≠ initRetriever := by
  refine ⟨rfl, rfl, ?_⟩
  intro h
  have := congrArg Retriever.index h
  simp [loadIndex, c7BadInput, initRetriever] at this

/-- Witness for C7 at a concrete partial-failure input. -/
theorem c7_load_failure_modes_witness :
    (c7BadInput.filesExist = true ∧ c7BadInput.indexData = some [[1]] ∧
      c7BadInput.sidecar = none) ∧
    loadIndex initRetriever c7BadInput =
      (false, { initRetriever with index := some [[1]] }) :=
  ⟨⟨rfl, rfl, rfl⟩,
   (c7_load_failure_modes initRetriever c7BadInput).2.2.1 [[1]] rfl rfl (Or.inl rfl)⟩

/-! ## Ranker (`backend/ranker.py`)

`Ranker.rank` scores every candidate, stable-sorts them by descending
`final_score` (Python's `sorted(..., reverse=True)`) and truncates to
`max_results`.  The context score `self._compute_context_score(candidate,
context)` is a pure function of the candidate and the fixed context, so it
is passed in as a function parameter `ctxScore`. -/

/-- `self.context_weights["semantic_similarity"]` = `0.5`. -/
def semanticSimilarityWeight : ℚ := 1 / 2

/-- A candidate dictionary after `rank` added its score keys.  Python
mutates the retriever dictionaries in place; `origIdx` records the
candidate's position in the input list (its retrieval order), which in
Python is the identity of the dictionary in the input list. -/
structure RankedEntry where
  command : Str
  score : ℚ
  rank : ℕ
  origIdx : ℕ
  semanticScore : ℚ
  contextScore : ℚ
  finalScore : ℚ
deriving DecidableEq, Repr

/-- The scoring loop body of `Ranker.rank` for the candidate at input
position `i`. -/
def scoreCandidate (ctxScore : SearchResult → ℚ) (i : ℕ) (c : SearchResult) :
    RankedEntry :=
  let cs := ctxScore c
  let ss := c.score
  { command := c.command, score := c.score, rank := c.rank, origIdx := i,
    semanticScore := ss, contextScore := cs,
    finalScore := semanticSimilarityWeight * ss
      + (1 - semanticSimilarityWeight) * cs }

/-- `Ranker.rank(candidates, context, max_results)`. -/
def rank (ctxScore : SearchResult → ℚ) (candidates : List SearchResult)
    (maxResults : ℕ) : List RankedEntry :=
  if candidates.isEmpty then []
  else
    let scored := candidates.enum.map (fun p => scoreCandidate ctxScore p.1 p.2)
    (sortDescBy (fun e => e.finalScore) scored).take maxResults

theorem enumFrom_pairwise_fst_lt (n : ℕ) (l : List α) :
    (l.enumFrom n).Pairwise (fun a b => a.1 < b.1) := by
  induction l generalizing n with
  | nil => simp
  | cons x xs ih =>
    rw [List.enumFrom_cons]
    refine List.pairwise_cons.2 ⟨?_, ih (n + 1)⟩
    rintro ⟨i, a⟩ hb
    have h := (List.mk_mem_enumFrom_iff_le_and_getElem?_sub.1 hb).1
    simpa using Nat.lt_of_succ_le (by simpa using h)

theorem enum_pairwise_fst_lt (l : List α) :
    l.enum.Pairwise (fun a b => a.1 < b.1) :=
  enumFrom_pairwise_fst_lt 0 l

/-- C3: `rank` returns at most `max_results` entries; every returned
entry's `final_score` is `0.5·semantic_score + 0.5·context_score`; the
final scores are non-increasing; and entries with equal final score keep
their original retrieval order (stable descending sort). -/
theorem c3_rank_sorted_truncated (ctxScore : SearchResult → ℚ)
    (candidates : List SearchResult) (maxResults : ℕ) :
    (rank ctxScore candidates maxResults).length ≤ maxResults ∧
    (∀ e ∈ rank ctxScore candidates maxResults,
      e.finalScore = 1 / 2 * e.semanticScore + 1 / 2 * e.contextScore) ∧
    (rank ctxScore candidates maxResults).Pairwise
      (fun a b => b.finalScore ≤ a.finalScore) ∧
    (rank ctxScore candidates maxResults).Pairwise
      (fun a b => a.finalScore = b.finalScore → a.origIdx < b.origIdx) := by
  by_cases hc : candidates.isEmpty
  · simp [rank, hc]
  · have hrank : rank ctxScore candidates maxResults =
        (sortDescBy (fun e => e.finalScore)
          (candidates.enum.map (fun p => scoreCandidate ctxScore p.1 p.2))).take
          maxResults := by
      simp [rank, hc]
    set scored := candidates.enum.map (fun p => scoreCandidate ctxScore p.1 p.2)
      with hscored
    have hpairQ : scored.Pairwise (fun a b => a.origIdx < b.origIdx) := by
      rw [hscored, List.pairwise_map]
      exact (enum_pairwise_fst_lt candidates).imp (fun h => by simpa [scoreCandidate])
    have hsorted := @sortDescBy_pairwise _ (fun e => e.finalScore) _ _ hpairQ
    have htake : (rank ctxScore candidates maxResults).Pairwise
        (fun a b => b.finalScore < a.finalScore ∨
          (a.finalScore = b.finalScore ∧ a.origIdx < b.origIdx)) := by
      rw [hrank]
      exact List.Pairwise.sublist (List.take_sublist _ _) hsorted
    refine ⟨?_, ?_, ?_, ?_⟩
    · rw [hrank]
      exact List.length_take_le _ _
    · intro e he
      have hmem : e ∈ scored := by
        have h1 : e ∈ sortDescBy (fun e => e.finalScore) scored :=
          (List.take_sublist _ _).mem (hrank ▸ he)
        exact (sortDescBy_perm _ scored).mem_iff.1 h1
      rw [hscored] at hmem
      rcases List.mem_map.1 hmem with ⟨p, _, rfl⟩
      simp only [scoreCandidate, semanticSimilarityWeight]
      ring
    · exact htake.imp (fun h => by
        rcases h with h | ⟨h, _⟩
        · exact le_of_lt h
        · exact le_of_eq h.symm)
    · exact htake.imp (fun h => by
        rcases h with h | ⟨heq, hidx⟩
        · exact fun heq => absurd (heq ▸ h) (lt_irrefl _)
        · exact fun _ => hidx)

/-- The candidate of the C3 witness. -/
def c3Cand : SearchResult := ⟨("a".toList), 1, 0⟩

/-- The ranked entry produced from `c3Cand` with a zero context score. -/
def c3Entry : RankedEntry := ⟨("a".toList), 1, 0, 0, 1, 0, 1 / 2⟩

/-- A concrete context-score function assigning zero to everything. -/
def ctxZero : SearchResult → ℚ := fun _ => 0

/-- Witness for C3 at a concrete candidate list. -/
theorem c3_rank_sorted_truncated_witness :
    c3Entry ∈ rank ctxZero [c3Cand] 5 ∧
    c3Entry.finalScore = 1 / 2 * c3Entry.semanticScore
      + 1 / 2 * c3Entry.contextScore := by
  have hm : c3Entry ∈ rank ctxZero [c3Cand] 5 := by
    norm_num [rank, c3Cand, c3Entry, ctxZero, scoreCandidate,
      semanticSimilarityWeight, sortDescBy, insertDescBy, List.enum_cons]
  exact ⟨hm, (c3_rank_sorted_truncated ctxZero [c3Cand] 5).2.1 c3Entry hm⟩

/-! ## Safety checker (`backend/safety.py`)

`SafetyChecker.check_command` lowercases and strips the command once
(`command_lower = command.strip().lower()`) but matches the critical-path
and force-flag checks against the raw `command`.  Regular expressions are
limited to literal runs, `\s+` and `[rf]+`, modelled by a small
token matcher. -/

/-- Python's whitespace characters (`str.strip`, regex `\s`), ASCII range. -/
def isPySpace (c : Char) : Bool :=
  c = ' ' || c = '\t' || c = '\n' || c = '\r' || c = '\x0b' || c = '\x0c'

/-- Remove trailing whitespace (the right half of `str.strip`). -/
def dropTrail (s : Str) : Str := (s.reverse.dropWhile isPySpace).reverse

/-- Python's `str.strip()`. -/
def stripStr (s : Str) : Str := dropTrail (s.dropWhile isPySpace)

/-- `command.strip().lower()` (ASCII lowercasing). -/
def commandLowerOf (command : Str) : Str := (stripStr command).map Char.toLower

/-- `SafetyChecker.DESTRUCTIVE_COMMANDS`, in dictionary insertion order. -/
def destructiveCommands : List (Str × List Str) :=
  [(("rm".toList), [("rm -rf".toList), ("rm -fr".toList), ("rm -r".toList), ("rm -f".toList)]),
   (("dd".toList), [("dd if=".toList), ("dd of=".toList)]),
   (("mkfs".toList), [("mkfs.".toList), ("mkfs ".toList)]),
   (("fdisk".toList), [("fdisk".toList)]),
   (("parted".toList), [("parted".toList)]),
   ((">".toList), [("> /dev/".toList)]),
   (("format".toList), [("format".toList)]),
   (("shred".toList), [("shred".toList)]),
   (("wipefs".toList), [("wipefs".toList)])]

/-- A regex fragment: a literal run, `\s+`, or a character class with `+`. -/
inductive RTok where
  | lit (s : Str)
  | ws
  | cls (cs : Str)

/-- Fuelled matcher: does the token list match a prefix of `s`?  Every
recursive call shortens `s` or the token list, so the fuel passed by
`matchToks` (`s.length + ts.length + 1`) is never exhausted. -/
def matchToksF : ℕ → List RTok → Str → Bool
  | 0, _, _ => false
  | _ + 1, [], _ => true
  | fuel + 1, .lit l :: ts, s => l.isPrefixOf s && matchToksF fuel ts (s.drop l.length)
  | fuel + 1, .ws :: ts, s =>
    match s with
    | [] => false
    | a :: rest =>
      isPySpace a && (matchToksF fuel ts rest || matchToksF fuel (.ws :: ts) rest)
  | fuel + 1, .cls cs :: ts, s =>
    match s with
    | [] => false
    | a :: rest =>
      cs.contains a && (matchToksF fuel ts rest || matchToksF fuel (.cls cs :: ts) rest)

/-- Match a token list at the start of `s`. -/
def matchToks (ts : List RTok) (s : Str) : Bool :=
  matchToksF (s.length + ts.length + 1) ts s

/-- `re.search`: match the pattern at some position of `s`. -/
def searchToks (p : List RTok) (s : Str) : Bool :=
  s.tails.any (fun t => matchToks p t)

/-- `SafetyChecker.SUDO_DANGEROUS_PATTERNS` as token lists.  They are
searched in the already-lowercased command without `re.IGNORECASE`, so
the literal `-R` runs are kept verbatim. -/
def sudoDangerousPatterns : List (List RTok) :=
  [[.lit ("sudo".toList), .ws, .lit ("rm".toList), .ws, .lit ("-".toList), .cls ("rf".toList)],
   [.lit ("sudo".toList), .ws, .lit ("dd".toList)],
   [.lit ("sudo".toList), .ws, .lit ("mkfs".toList)],
   [.lit ("sudo".toList), .ws, .lit ("chmod".toList), .ws, .lit ("-R".toList), .ws,
    .lit ("777".toList)],
   [.lit ("sudo".toList), .ws, .lit ("chown".toList), .ws, .lit ("-R".toList)]]

/-- `SafetyChecker.CRITICAL_PATHS`. -/
def criticalPaths : List Str :=
  ["/", "/bin", "/boot", "/dev", "/etc", "/lib", "/proc", "/root", "/sbin",
   "/sys", "/usr", "/var"].map String.toList

/-- `SafetyLevel`. -/
inductive SafetyLevel where
  | safe
  | warning
  | dangerous
deriving DecidableEq, Repr

/-- The dictionary returned by `check_command`. -/
structure SafetyResult where
  level : SafetyLevel
  warning : Option Str
  reasons : List Str
deriving DecidableEq, Repr

/-- The destructive-pattern reasons, in iteration order. -/
def destructiveReasons (lower : Str) : List Str :=
  destructiveCommands.flatMap (fun entry =>
    entry.2.filterMap (fun pat =>
      if pat <:+: lower then
        some (("Contains destructive pattern: ".toList) ++ pat)
      else none))

/-- The sudo-pattern reasons (one per matching pattern). -/
def sudoReasons (lower : Str) : List Str :=
  sudoDangerousPatterns.filterMap (fun pat =>
    if searchToks pat lower then
      some ("Dangerous sudo command detected".toList)
    else none)

/-- `any(dangerous in command_lower for dangerous in ["rm", "dd", "mkfs", ">"])`. -/
def hasDestructiveKeyword (lower : Str) : Prop :=
  ∃ kw ∈ ["rm", "dd", "mkfs", ">"].map String.toList, kw <:+: lower

instance (lower : Str) : Decidable (hasDestructiveKeyword lower) :=
  List.decidableBEx _ _

/-- The critical-path reasons; the membership tests use the raw command. -/
def critReasons (command lower : Str) : List Str :=
  criticalPaths.filterMap (fun p =>
    if (' ' :: p) <:+: command ∨ p <+: command then
      if hasDestructiveKeyword lower then
        some (("Destructive operation on critical path: ".toList) ++ p)
      else none
    else none)

/-- The `--no-preserve-root` reason. -/
def noPreserveReasons (lower : Str) : List Str :=
  if ("--no-preserve-root".toList) <:+: lower then
    [("Bypasses root protection (--no-preserve-root)".toList)]
  else []

/-- The force-flag reason; `-f`/`--force` are looked up in the raw
command. -/
def forceReasons (command lower : Str) : List Str :=
  if ("sudo".toList) <:+: lower ∧
      (("-f".toList) <:+: command ∨ ("--force".toList) <:+: command) then
    if ∃ kw ∈ ["rm", "mkfs", "dd"].map String.toList, kw <:+: lower then
      [("Forced system operation".toList)]
    else []
  else []

/-- The critical danger indicators deciding DANGEROUS vs WARNING. -/
def dangerIndicators : List Str :=
  ["rm -rf /", "dd of=/dev/sda", "mkfs."].map String.toList

/-- `SafetyChecker.check_command`. -/
def checkCommand (command : Str) : SafetyResult :=
  let lower := commandLowerOf command
  let reasons := destructiveReasons lower ++ sudoReasons lower ++
    critReasons command lower ++ noPreserveReasons lower ++
    forceReasons command lower
  if reasons.isEmpty then ⟨.safe, none, reasons⟩
  else if ∃ ind ∈ dangerIndicators, ind <:+: lower then
    ⟨.dangerous,
     some ("⚠️  DANGEROUS: This command could cause data loss or system damage!".toList),
     reasons⟩
  else
    ⟨.warning,
     some ("⚠️  WARNING: This command could be destructive. Use with caution.".toList),
     reasons⟩

/-- C8 counterexample: the safety check is not case-insensitive — the
force-flag check matches `-f` against the raw command, so the
case-variant `sudo rm x -F` of `sudo rm x -f` flips the result from
WARNING to SAFE — and a leading tab (whitespace) hides a critical-path
match, flipping `\t/etc rm` to SAFE as well. -/
theorem c8_not_case_whitespace_invariant :
    (checkCommand ("sudo rm x -f".toList)).level = .warning ∧
    (checkCommand ("sudo rm x -F".toList)).level = .safe ∧
    checkCommand ("sudo rm x -f".toList) ≠ checkCommand ("sudo rm x -F".toList) ∧
    (checkCommand ("/etc rm".toList)).level = .warning ∧
    (checkCommand ('\t' :: ("/etc rm".toList))).level = .safe ∧
    checkCommand ('\t' :: ("/etc rm".toList)) ≠ checkCommand ("/etc rm".toList) := by
  decide

/-! ### Whitespace invariance of `check_command`

Every check either works on `command_lower` (invariant under surrounding
whitespace because of `strip()`), or matches a pattern whose first and
last characters are not whitespace against the raw command — except for
the critical-path patterns `" {path}"`, whose leading space is why only
leading *space* characters (not tabs) leave the result unchanged. -/

theorem dropWhile_cons_of_pos {p : Char → Bool} {x : Char} (hx : p x = true)
    (l : Str) : (x :: l).dropWhile p = l.dropWhile p := by
  simp [List.dropWhile_cons, hx]

theorem stripStr_cons_space (s : Str) : stripStr (' ' :: s) = stripStr s := by
  unfold stripStr
  rw [dropWhile_cons_of_pos (by decide) s]

theorem dropTrail_snoc_ws {x : Char} (hx : isPySpace x = true) (s : Str) :
    dropTrail (s ++ [x]) = dropTrail s := by
  unfold dropTrail
  rw [List.reverse_append]
  simp only [List.reverse_cons, List.reverse_nil, List.nil_append,
    List.singleton_append]
  rw [dropWhile_cons_of_pos hx]

theorem stripStr_snoc_ws {x : Char} (hx : isPySpace x = true) (s : Str) :
    stripStr (s ++ [x]) = stripStr s := by
  unfold stripStr
  rw [List.dropWhile_append]
  by_cases h : (s.dropWhile isPySpace).isEmpty
  · rw [if_pos h]
    rw [List.isEmpty_iff] at h
    rw [h]
    simp [List.dropWhile_cons, hx, dropTrail]
  · rw [if_neg h]
    exact dropTrail_snoc_ws hx _

theorem commandLowerOf_cons_space (s : Str) :
    commandLowerOf (' ' :: s) = commandLowerOf s := by
  unfold commandLowerOf
  rw [stripStr_cons_space]

theorem commandLowerOf_snoc_ws {x : Char} (hx : isPySpace x = true) (s : Str) :
    commandLowerOf (s ++ [x]) = commandLowerOf s := by
  unfold commandLowerOf
  rw [stripStr_snoc_ws hx]

theorem ifx_cons_of_head_ne {b a : Char} {q t : Str} (h : b ≠ a) :
    ((b :: q) <:+: a :: t) ↔ (b :: q) <:+: t := by
  rw [List.infix_cons_iff]
  simp [List.cons_prefix_cons, h]

theorem pfx_cons_of_head_ne {b a : Char} {q t : Str} (h : b ≠ a) :
    ¬((b :: q) <+: a :: t) := by
  simp [List.cons_prefix_cons, h]

theorem ifx_concat_right {q' t : Str} {b x : Char} (hb : b ≠ x) :
    ((q' ++ [b]) <:+: t ++ [x]) ↔ (q' ++ [b]) <:+: t := by
  have e1 : (q' ++ [b]) <:+: t ++ [x] ↔ (b :: q'.reverse) <:+: (x :: t.reverse) := by
    constructor
    · intro h
      simpa using List.reverse_infix.2 h
    · intro h
      refine List.reverse_infix.1 ?_
      simpa using h
  rw [e1, ifx_cons_of_head_ne hb]
  constructor
  · intro h
    refine List.reverse_infix.1 ?_
    simpa using h
  · intro h
    simpa using List.reverse_infix.2 h

theorem pfx_concat_right {q' t : Str} {b x : Char} (hb : b ≠ x) :
    ((q' ++ [b]) <+: t ++ [x]) ↔ (q' ++ [b]) <+: t := by
  have e1 : (q' ++ [b]) <+: t ++ [x] ↔ (b :: q'.reverse) <:+ (x :: t.reverse) := by
    constructor
    · intro h
      simpa using List.reverse_suffix.2 h
    · intro h
      refine List.reverse_suffix.1 ?_
      simpa using h
  rw [e1, List.suffix_cons_iff]
  constructor
  · rintro (h' | h')
    · exfalso
      have hbx : b = x := by
        have := congrArg List.head? h'
        simpa using this
      exact hb hbx
    · refine List.reverse_suffix.1 ?_
      simpa using h'
  · intro h
    refine Or.inr ?_
    simpa using List.reverse_suffix.2 h

theorem ifx_snoc_iff {q t : Str} {x : Char} (hx : isPySpace x = true)
    (hlast : q.getLast?.map isPySpace = some false) :
    (q <:+: t ++ [x]) ↔ q <:+: t := by
  have hq : q ≠ [] := by
    intro h
    subst h
    simp at hlast
  obtain ⟨q', b, rfl⟩ := (List.eq_nil_or_concat q).resolve_left hq
  simp only [List.concat_eq_append] at hlast ⊢
  rw [List.getLast?_concat] at hlast
  have hb : isPySpace b = false := by simpa using hlast
  exact ifx_concat_right (fun heq => by rw [heq, hx] at hb; cases hb)

theorem pfx_snoc_iff {q t : Str} {x : Char} (hx : isPySpace x = true)
    (hlast : q.getLast?.map isPySpace = some false) :
    (q <+: t ++ [x]) ↔ q <+: t := by
  have hq : q ≠ [] := by
    intro h
    subst h
    simp at hlast
  obtain ⟨q', b, rfl⟩ := (List.eq_nil_or_concat q).resolve_left hq
  simp only [List.concat_eq_append] at hlast ⊢
  rw [List.getLast?_concat] at hlast
  have hb : isPySpace b = false := by simpa using hlast
  exact pfx_concat_right (fun heq => by rw [heq, hx] at hb; cases hb)

theorem criticalPaths_head :
    ∀ p ∈ criticalPaths, p.head? = some '/' := by decide

theorem criticalPaths_getLast :
    ∀ p ∈ criticalPaths, p.getLast?.map isPySpace = some false := by decide

theorem critHit_cons_space {p : Str} (hp : p.head? = some '/') (c : Str) :
    ((' ' :: p) <:+: (' ' :: c) ∨ p <+: (' ' :: c)) ↔
      ((' ' :: p) <:+: c ∨ p <+: c) := by
  cases p with
  | nil => cases hp
  | cons b q =>
    have hb : b = '/' := by simpa using hp
    subst hb
    rw [List.infix_cons_iff]
    have h2 : (' ' :: '/' :: q) <+: (' ' :: c) ↔ ('/' :: q) <+: c := by
      simp [List.cons_prefix_cons]
    have h3 : ¬(('/' :: q) <+: (' ' :: c)) := pfx_cons_of_head_ne (by decide)
    rw [h2]
    tauto

theorem critHit_snoc {p : Str} (hplast : p.getLast?.map isPySpace = some false)
    {x : Char} (hx : isPySpace x = true) (c : Str) :
    ((' ' :: p) <:+: (c ++ [x]) ∨ p <+: (c ++ [x])) ↔
      ((' ' :: p) <:+: c ∨ p <+: c) := by
  have hp : p ≠ [] := by
    intro h
    subst h
    simp at hplast
  have hlast' : (' ' :: p).getLast?.map isPySpace = some false := by
    cases p with
    | nil => exact absurd rfl hp
    | cons b q => rw [List.getLast?_cons_cons]; exact hplast
  rw [ifx_snoc_iff hx hlast', pfx_snoc_iff hx hplast]

theorem critReasons_cons_space (c lower : Str) :
    critReasons (' ' :: c) lower = critReasons c lower := by
  unfold critReasons
  apply List.filterMap_congr
  intro p hp
  exact if_congr (critHit_cons_space (criticalPaths_head p hp) c) rfl rfl

theorem critReasons_snoc_ws {x : Char} (hx : isPySpace x = true) (c lower : Str) :
    critReasons (c ++ [x]) lower = critReasons c lower := by
  unfold critReasons
  apply List.filterMap_congr
  intro p hp
  exact if_congr (critHit_snoc (criticalPaths_getLast p hp) hx c) rfl rfl

theorem forceReasons_cons_space (c lower : Str) :
    forceReasons (' ' :: c) lower = forceReasons c lower := by
  unfold forceReasons
  have h1 : (("-f".toList) <:+: (' ' :: c)) ↔ ("-f".toList) <:+: c :=
    ifx_cons_of_head_ne (by decide)
  have h2 : (("--force".toList) <:+: (' ' :: c)) ↔ ("--force".toList) <:+: c :=
    ifx_cons_of_head_ne (by decide)
  exact if_congr (by rw [h1, h2]) rfl rfl

theorem forceReasons_snoc_ws {x : Char} (hx : isPySpace x = true) (c lower : Str) :
    forceReasons (c ++ [x]) lower = forceReasons c lower := by
  unfold forceReasons
  have h1 : (("-f".toList) <:+: (c ++ [x])) ↔ ("-f".toList) <:+: c :=
    ifx_snoc_iff hx (by decide)
  have h2 : (("--force".toList) <:+: (c ++ [x])) ↔ ("--force".toList) <:+: c :=
    ifx_snoc_iff hx (by decide)
  exact if_congr (by rw [h1, h2]) rfl rfl

theorem checkCommand_cons_space (c : Str) :
    checkCommand (' ' :: c) = checkCommand c := by
  simp only [checkCommand]
  rw [commandLowerOf_cons_space, critReasons_cons_space, forceReasons_cons_space]

theorem checkCommand_snoc_ws {x : Char} (hx : isPySpace x = true) (c : Str) :
    checkCommand (c ++ [x]) = checkCommand c := by
  simp only [checkCommand]
  rw [commandLowerOf_snoc_ws hx, critReasons_snoc_ws hx, forceReasons_snoc_ws hx]

theorem checkCommand_append_ws (s : Str) :
    ∀ tw : Str, (∀ x ∈ tw, isPySpace x = true) →
      checkCommand (s ++ tw) = checkCommand s := by
  intro tw
  induction tw using List.reverseRecOn with
  | nil => simp
  | append_singleton ys y ih =>
    intro h
    rw [← List.append_assoc, checkCommand_snoc_ws (h y (by simp)) (s ++ ys)]
    exact ih (fun x hx => h x (by simp [hx]))

/-- C8 (amended): the safety check is invariant under added leading
space characters and trailing whitespace on a command of unchanged case.
It is not invariant under case changes (the critical-path and force-flag
checks match the raw command case-sensitively), nor under leading
non-space whitespace such as a tab. -/
theorem c8_space_invariance (c tw : Str) (n : ℕ)
    (htw : ∀ x ∈ tw, isPySpace x = true) :
    checkCommand (List.replicate n ' ' ++ c ++ tw) = checkCommand c := by
  induction n with
  | zero => simpa using checkCommand_append_ws c tw htw
  | succ m ih =>
    have hshape : List.replicate (m + 1) ' ' ++ c ++ tw =
        ' ' :: (List.replicate m ' ' ++ c ++ tw) := by
      simp [List.replicate_succ]
    rw [hshape, checkCommand_cons_space]
    exact ih

/-- Witness for C8 at a concrete command, two leading spaces and one
trailing tab. -/
theorem c8_space_invariance_witness :
    (∀ x ∈ ['\t'], isPySpace x = true) ∧
    checkCommand (List.replicate 2 ' ' ++ ("rm -rf /".toList) ++ ['\t']) =
      checkCommand ("rm -rf /".toList) :=
  ⟨by decide, c8_space_invariance ("rm -rf /".toList) ['\t'] 2 (by decide)⟩

/-! ## Suggestion engine (`backend/suggestion_engine.py`)

`get_suggestions` extracts context (parameterised away as `ctxScore` and
the embedder), retrieves candidates, ranks them, annotates safety when
enabled, and filters duplicates keeping the first occurrence. -/

/-- A ranked suggestion dictionary, optionally carrying the `"safety"`
key added when `ENABLE_SAFETY_CHECK` is on. -/
structure Suggestion where
  entry : RankedEntry
  safety : Option SafetyResult
deriving DecidableEq, Repr

/-- The safety-annotation loop of `get_suggestions`. -/
def annotateSafety (enable : Bool) (l : List RankedEntry) : List Suggestion :=
  if enable then l.map (fun e => ⟨e, some (checkCommand e.command)⟩)
  else l.map (fun e => ⟨e, none⟩)

/-- The duplicate-filtering loop: `seen_commands` starts empty, each
suggestion is kept iff its command text has not been seen. -/
def dedupSuggestions : List Suggestion → List Str → List Suggestion
  | [], _ => []
  | s :: rest, seen =>
    if s.entry.command ∈ seen then dedupSuggestions rest seen
    else s :: dedupSuggestions rest (s.entry.command :: seen)

/-- The dictionary returned by `get_suggestions`. -/
structure SuggestResponse where
  success : Bool
  suggestions : List Suggestion
  error : Option Str
  message : Option Str
  totalCandidates : Option ℕ
deriving Repr

/-- `SuggestionEngine.get_suggestions`. -/
def getSuggestions (emb : Str → Vec) (ctxScore : SearchResult → ℚ)
    (enableSafety : Bool) (st : Retriever) (query : Str)
    (topK maxSuggestions : ℕ) : SuggestResponse :=
  match searchFn emb st query topK with
  | .error _ =>
    ⟨false, [],
     some ("Index not loaded. Call load_index() or build_index() first.".toList),
     none, none⟩
  | .ok candidates =>
    if candidates.isEmpty then
      ⟨true, [], none, some ("No similar commands found".toList), none⟩
    else
      let ranked := rank ctxScore candidates maxSuggestions
      let withSafety := annotateSafety enableSafety ranked
      ⟨true, dedupSuggestions withSafety [], none, none, some candidates.length⟩

theorem dedup_not_mem_seen :
    ∀ (l : List Suggestion) (seen : List Str),
      ∀ t ∈ dedupSuggestions l seen, t.entry.command ∉ seen := by
  intro l
  induction l with
  | nil =>
    intro seen t ht
    simp [dedupSuggestions] at ht
  | cons s rest ih =>
    intro seen t ht
    by_cases h : s.entry.command ∈ seen
    · simp only [dedupSuggestions] at ht
      rw [if_pos h] at ht
      exact ih seen t ht
    · simp only [dedupSuggestions] at ht
      rw [if_neg h] at ht
      rcases List.mem_cons.1 ht with rfl | ht'
      · exact h
      · exact fun hmem => ih _ t ht' (List.mem_cons_of_mem _ hmem)

theorem dedup_pairwise_ne (l : List Suggestion) (seen : List Str) :
    (dedupSuggestions l seen).Pairwise
      (fun a b => a.entry.command ≠ b.entry.command) := by
  induction l generalizing seen with
  | nil => simp [dedupSuggestions]
  | cons s rest ih =>
    by_cases h : s.entry.command ∈ seen
    · simp only [dedupSuggestions]
      rw [if_pos h]
      exact ih seen
    · simp only [dedupSuggestions]
      rw [if_neg h]
      refine List.pairwise_cons.2 ⟨?_, ih _⟩
      intro b hb heq
      refine dedup_not_mem_seen rest _ b hb ?_
      rw [← heq]
      exact List.mem_cons_self _ _

theorem dedup_sublist (l : List Suggestion) (seen : List Str) :
    List.Sublist (dedupSuggestions l seen) l := by
  induction l generalizing seen with
  | nil => simp [dedupSuggestions]
  | cons s rest ih =>
    by_cases h : s.entry.command ∈ seen
    · simp only [dedupSuggestions]
      rw [if_pos h]
      exact (ih seen).cons s
    · simp only [dedupSuggestions]
      rw [if_neg h]
      exact (ih _).cons₂ s

theorem dedup_covers :
    ∀ (l : List Suggestion) (seen : List Str), ∀ s ∈ l,
      s.entry.command ∉ seen →
      ∃ t ∈ dedupSuggestions l seen, t.entry.command = s.entry.command := by
  intro l
  induction l with
  | nil =>
    intro seen s hs
    simp at hs
  | cons a rest ih =>
    intro seen s hs hnot
    by_cases h : a.entry.command ∈ seen
    · simp only [dedupSuggestions]
      rw [if_pos h]
      rcases List.mem_cons.1 hs with rfl | hs'
      · exact absurd h hnot
      · exact ih seen s hs' hnot
    · simp only [dedupSuggestions]
      rw [if_neg h]
      rcases List.mem_cons.1 hs with rfl | hs'
      · exact ⟨s, List.mem_cons_self _ _, rfl⟩
      · by_cases heq : s.entry.command = a.entry.command
        · exact ⟨a, List.mem_cons_self _ _, heq.symm⟩
        · have hnot' : s.entry.command ∉ a.entry.command :: seen := by
            intro hmem
            rcases List.mem_cons.1 hmem with h' | h'
            · exact heq h'
            · exact hnot h'
          obtain ⟨t, ht, hteq⟩ := ih _ s hs' hnot'
          exact ⟨t, List.mem_cons_of_mem _ ht, hteq⟩

theorem dedup_first_occurrence :
    ∀ (l : List Suggestion) (seen : List Str), ∀ t ∈ dedupSuggestions l seen,
      ∃ pre post, l = pre ++ t :: post ∧
        ∀ u ∈ pre, u.entry.command ≠ t.entry.command := by
  intro l
  induction l with
  | nil =>
    intro seen t ht
    simp [dedupSuggestions] at ht
  | cons s rest ih =>
    intro seen t ht
    by_cases h : s.entry.command ∈ seen
    · simp only [dedupSuggestions] at ht
      rw [if_pos h] at ht
      obtain ⟨pre, post, heq, hpre⟩ := ih seen t ht
      have htnot := dedup_not_mem_seen rest seen t ht
      refine ⟨s :: pre, post, by rw [List.cons_append, heq], ?_⟩
      intro u hu
      rcases List.mem_cons.1 hu with rfl | hu'
      · intro hcmd
        exact htnot (hcmd ▸ h)
      · exact hpre u hu'
    · simp only [dedupSuggestions] at ht
      rw [if_neg h] at ht
      rcases List.mem_cons.1 ht with rfl | ht'
      · exact ⟨[], rest, rfl, by simp⟩
      · obtain ⟨pre, post, heq, hpre⟩ := ih _ t ht'
        have htnot := dedup_not_mem_seen rest _ t ht'
        refine ⟨s :: pre, post, by rw [List.cons_append, heq], ?_⟩
        intro u hu
        rcases List.mem_cons.1 hu with rfl | hu'
        · intro hcmd
          refine htnot ?_
          rw [← hcmd]
          exact List.mem_cons_self _ _
        · exact hpre u hu'

/-- C4: the suggestion list never contains two entries with the same
command text; it is a sublist of the ranked (safety-annotated) list, so
survivors keep their relative order; every ranked command survives; and
each survivor is the first (highest-ranked) occurrence of its command. -/
theorem c4_dedup_suggestions (emb : Str → Vec) (ctxScore : SearchResult → ℚ)
    (enableSafety : Bool) (st : Retriever) (query : Str) (topK maxS : ℕ) :
    (getSuggestions emb ctxScore enableSafety st query topK maxS).suggestions.Pairwise
      (fun a b => a.entry.command ≠ b.entry.command) ∧
    (∀ candidates, searchFn emb st query topK = .ok candidates →
      candidates.isEmpty = false →
      (List.Sublist
        (getSuggestions emb ctxScore enableSafety st query topK maxS).suggestions
        (annotateSafety enableSafety (rank ctxScore candidates maxS)) ∧
      (∀ s ∈ annotateSafety enableSafety (rank ctxScore candidates maxS),
        ∃ t ∈ (getSuggestions emb ctxScore enableSafety st query topK maxS).suggestions,
          t.entry.command = s.entry.command) ∧
      (∀ t ∈ (getSuggestions emb ctxScore enableSafety st query topK maxS).suggestions,
        ∃ pre post,
          annotateSafety enableSafety (rank ctxScore candidates maxS) =
            pre ++ t :: post ∧
          ∀ u ∈ pre, u.entry.command ≠ t.entry.command))) := by
  cases hsr : searchFn emb st query topK with
  | error e =>
    constructor
    · simp [getSuggestions, hsr]
    · intro candidates hok
      exact absurd hok (by simp)
  | ok candidates =>
    by_cases hce : candidates.isEmpty
    · constructor
      · simp [getSuggestions, hsr, hce]
      · intro cands' hok hne
        have hcc : candidates = cands' := by simpa using hok
        rw [← hcc, hce] at hne
        cases hne
    · have hred : (getSuggestions emb ctxScore enableSafety st query topK maxS).suggestions =
          dedupSuggestions
            (annotateSafety enableSafety (rank ctxScore candidates maxS)) [] := by
        simp [getSuggestions, hsr, hce]
      constructor
      · rw [hred]
        exact dedup_pairwise_ne _ []
      · intro cands' hok hne
        have hcc : candidates = cands' := by simpa using hok
        subst hcc
        refine ⟨?_, ?_, ?_⟩
        · rw [hred]
          exact dedup_sublist _ []
        · intro s hs
          rw [hred]
          exact dedup_covers _ [] s hs (by simp)
        · intro t ht
          rw [hred] at ht
          exact dedup_first_occurrence _ [] t ht

/-- A two-vector index whose two commands are the same text, so the
retriever returns duplicate candidates. -/
def c4State : Retriever :=
  ⟨some [[0], [0]], [("ls".toList), ("ls".toList)], ⟨none, none, none⟩⟩

/-- The duplicate candidates retrieved from `c4State`. -/
def c4Cands : List SearchResult :=
  [⟨("ls".toList), 1, 0⟩, ⟨("ls".toList), 1, 1⟩]

/-- Witness for C4: retrieval from `c4State` returns duplicate commands
and the suggestion list is still a deduplicated sublist of the ranked
list. -/
theorem c4_dedup_suggestions_witness :
    searchFn embW c4State ("x".toList) 10 = .ok c4Cands ∧
    c4Cands.isEmpty = false ∧
    List.Sublist (getSuggestions embW ctxZero false c4State ("x".toList) 10 5).suggestions
      (annotateSafety false (rank ctxZero c4Cands 5)) := by
  have hok : searchFn embW c4State ("x".toList) 10 = .ok c4Cands := by
    norm_num [searchFn, c4State, embW, c4Cands, faissSearch, l2sq,
      sortAscBy, insertAscBy, codeSimilarity, List.enum_cons,
      List.filterMap_cons, List.filterMap_nil]
  exact ⟨hok, rfl,
    ((c4_dedup_suggestions embW ctxZero false c4State ("x".toList) 10 5).2
      c4Cands hok rfl).1⟩

/-! ## Error fixes (`backend/error_fixes.py`)

`ErrorFixer.find_fixes` matches each database pattern against the error
message with `re.search(..., re.IGNORECASE)`.  The regex engine is
parameterised as a boolean matcher `M pattern message`; a pattern whose
compilation raises `re.error` is skipped by the code, which coincides
with a matcher returning `false` for it. -/

/-- One entry of the error-fixes database. -/
structure PatternEntry where
  pattern : Str
  category : Str
  fixes : List Str
  description : Str
deriving DecidableEq, Repr

/-- `ErrorFixer._calculate_confidence(pattern, error_message, last_command)`
(the `error_message` argument is unused in the source too). -/
def calcConfidence (pattern : Str) (_errorMessage : Str)
    (lastCommand : Option Str) : ℚ :=
  let base : ℚ := 7 / 10
  let c1 := if 30 < pattern.length then base + 1 / 10 else base
  let c2 := match lastCommand with
    | none => c1
    | some lc =>
      if ("git".toList) <:+: pattern ∧ ("git".toList) <:+: lc then c1 + 15 / 100
      else if ("npm".toList) <:+: pattern ∧ ("npm".toList) <:+: lc then c1 + 15 / 100
      else if ("docker".toList) <:+: pattern ∧ ("docker".toList) <:+: lc then
        c1 + 15 / 100
      else if ("pip".toList) <:+: pattern ∧ ("pip".toList) <:+: lc then c1 + 15 / 100
      else c1
  min c2 1

/-- The keyword condition of the claim: the last command contains one of
the four tool keywords and that same keyword appears in the pattern. -/
def kwBoost (pattern : Str) : Option Str → Prop
  | none => False
  | some lc => ∃ kw ∈ ["git", "npm", "docker", "pip"].map String.toList,
      kw <:+: pattern ∧ kw <:+: lc

instance (pattern : Str) : (lc : Option Str) → Decidable (kwBoost pattern lc)
  | none => isFalse id
  | some _ => List.decidableBEx _ _

/-- The claim's closed-form confidence: `0.7`, plus `0.1` for patterns
longer than 30 characters, plus `0.15` for a matching tool keyword,
capped at `1.0`. -/
def confidenceSpec (pattern : Str) (lastCommand : Option Str) : ℚ :=
  min (7 / 10 + (if 30 < pattern.length then (1 : ℚ) / 10 else 0) +
    (if kwBoost pattern lastCommand then (15 : ℚ) / 100 else 0)) 1

theorem kwBoost_some_iff (pattern lc : Str) :
    kwBoost pattern (some lc) ↔
      (("git".toList) <:+: pattern ∧ ("git".toList) <:+: lc) ∨
      (("npm".toList) <:+: pattern ∧ ("npm".toList) <:+: lc) ∨
      (("docker".toList) <:+: pattern ∧ ("docker".toList) <:+: lc) ∨
      (("pip".toList) <:+: pattern ∧ ("pip".toList) <:+: lc) := by
  simp [kwBoost]

/-- An `elif` chain whose branches all add the same bonus equals adding
the bonus when any condition holds. -/
theorem chain_eq_any (c : ℚ) (g n d p : Prop) [Decidable g] [Decidable n]
    [Decidable d] [Decidable p] :
    (if g then c + 15 / 100 else if n then c + 15 / 100
     else if d then c + 15 / 100 else if p then c + 15 / 100 else c) =
    c + (if g ∨ n ∨ d ∨ p then (15 : ℚ) / 100 else 0) := by
  by_cases hg : g <;> by_cases hn : n <;> by_cases hd : d <;> by_cases hp : p <;>
    simp [hg, hn, hd, hp]

/-- The `elif` chain of `_calculate_confidence` adds `0.15` exactly when
some keyword occurs in both the pattern and the last command. -/
theorem calcConfidence_eq_spec (pattern msg : Str) (lc : Option Str) :
    calcConfidence pattern msg lc = confidenceSpec pattern lc := by
  cases lc with
  | none =>
    by_cases hl : 30 < pattern.length <;>
      simp [calcConfidence, confidenceSpec, kwBoost, hl]
  | some l =>
    simp only [calcConfidence, confidenceSpec]
    rw [chain_eq_any]
    by_cases hl : 30 < pattern.length <;>
      simp [hl, kwBoost_some_iff]

theorem calcConfidence_ge (pattern msg : Str) (lc : Option Str) :
    (7 : ℚ) / 10 ≤ calcConfidence pattern msg lc := by
  unfold calcConfidence
  refine le_min ?_ (by norm_num)
  cases lc <;> dsimp only <;> split_ifs <;> norm_num

/-- One dictionary of `find_fixes`' result list; `idx` records the
pattern's position in the database (the original pattern order). -/
structure ErrorMatch where
  idx : ℕ
  category : Str
  description : Str
  fixes : List Str
  confidence : ℚ
deriving DecidableEq, Repr

/-- The match-collection loop of `find_fixes`, before sorting. -/
def preMatches (M : Str → Str → Bool) (patterns : List PatternEntry)
    (msg : Str) (lastCmd : Option Str) : List ErrorMatch :=
  patterns.enum.filterMap (fun p =>
    if M p.2.pattern msg then
      some ⟨p.1, p.2.category, p.2.description, p.2.fixes,
            calcConfidence p.2.pattern msg lastCmd⟩
    else none)

/-- `ErrorFixer.find_fixes(error_message, last_command)`: collect one
match per matching pattern, then `matches.sort(key=confidence,
reverse=True)` (stable). -/
def findFixes (M : Str → Str → Bool) (patterns : List PatternEntry)
    (msg : Str) (lastCmd : Option Str) : List ErrorMatch :=
  sortDescBy (fun m => m.confidence) (preMatches M patterns msg lastCmd)

/-- `ErrorFixer.get_quick_fix`: the first fix of the top match when its
confidence exceeds `0.6`.  (`matches[0]["fixes"][0]` is `head?` here;
every database entry has a nonempty fixes list.) -/
def getQuickFix (M : Str → Str → Bool) (patterns : List PatternEntry)
    (msg : Str) (lastCmd : Option Str) : Option Str :=
  match findFixes M patterns msg lastCmd with
  | [] => none
  | m :: _ => if 6 / 10 < m.confidence then m.fixes.head? else none

theorem preMatches_pairwise_idx (M : Str → Str → Bool)
    (patterns : List PatternEntry) (msg : Str) (lastCmd : Option Str) :
    (preMatches M patterns msg lastCmd).Pairwise (fun a b => a.idx < b.idx) := by
  unfold preMatches
  rw [List.pairwise_filterMap]
  refine (enum_pairwise_fst_lt patterns).imp ?_
  intro a b hab x hx y hy
  by_cases hMa : M a.2.pattern msg
  · rw [if_pos hMa] at hx
    by_cases hMb : M b.2.pattern msg
    · rw [if_pos hMb] at hy
      cases hx
      cases hy
      exact hab
    · rw [if_neg hMb] at hy
      cases hy
  · rw [if_neg hMa] at hx
    cases hx

theorem mem_preMatches {M : Str → Str → Bool} {patterns : List PatternEntry}
    {msg : Str} {lastCmd : Option Str} {m : ErrorMatch} :
    m ∈ preMatches M patterns msg lastCmd ↔
      ∃ i e, patterns[i]? = some e ∧ M e.pattern msg = true ∧
        m = ⟨i, e.category, e.description, e.fixes,
             calcConfidence e.pattern msg lastCmd⟩ := by
  unfold preMatches
  rw [List.mem_filterMap]
  constructor
  · rintro ⟨p, hp, hsome⟩
    by_cases hM : M p.2.pattern msg
    · rw [if_pos hM] at hsome
      cases hsome
      exact ⟨p.1, p.2, List.mem_enum_iff_getElem?.1 hp, hM, rfl⟩
    · rw [if_neg hM] at hsome
      cases hsome
  · rintro ⟨i, e, he, hM, rfl⟩
    refine ⟨(i, e), ?_, ?_⟩
    · exact List.mem_enum_iff_getElem?.2 he
    · rw [if_pos hM]

/-- C9: `find_fixes` builds exactly one match per pattern whose regex
matches the message, with the claimed confidence formula; the result is
sorted by descending confidence, and equal confidences keep the original
pattern order. -/
theorem c9_find_fixes (M : Str → Str → Bool) (patterns : List PatternEntry)
    (msg : Str) (lastCmd : Option Str) :
    (∀ m ∈ findFixes M patterns msg lastCmd,
      ∃ e, patterns[m.idx]? = some e ∧ M e.pattern msg = true ∧
        m.category = e.category ∧ m.description = e.description ∧
        m.fixes = e.fixes ∧ m.confidence = confidenceSpec e.pattern lastCmd) ∧
    (∀ i e, patterns[i]? = some e → M e.pattern msg = true →
      ∃ m ∈ findFixes M patterns msg lastCmd, m.idx = i) ∧
    ((findFixes M patterns msg lastCmd).map (fun m => m.idx)).Nodup ∧
    (findFixes M patterns msg lastCmd).Pairwise
      (fun a b => b.confidence ≤ a.confidence) ∧
    (findFixes M patterns msg lastCmd).Pairwise
      (fun a b => a.confidence = b.confidence → a.idx < b.idx) := by
  have hperm := sortDescBy_perm (fun m => m.confidence)
    (preMatches M patterns msg lastCmd)
  have hsorted := @sortDescBy_pairwise _ (fun m => m.confidence) _ _
    (preMatches_pairwise_idx M patterns msg lastCmd)
  refine ⟨?_, ?_, ?_, ?_, ?_⟩
  · intro m hm
    rcases mem_preMatches.1 (hperm.mem_iff.1 hm) with ⟨i, e, he, hM, rfl⟩
    exact ⟨e, he, hM, rfl, rfl, rfl, calcConfidence_eq_spec e.pattern msg lastCmd⟩
  · intro i e he hM
    refine ⟨⟨i, e.category, e.description, e.fixes,
      calcConfidence e.pattern msg lastCmd⟩, ?_, rfl⟩
    exact hperm.mem_iff.2 (mem_preMatches.2 ⟨i, e, he, hM, rfl⟩)
  · have hnd : ((preMatches M patterns msg lastCmd).map (fun m => m.idx)).Nodup :=
      List.Pairwise.imp (fun h => Nat.ne_of_lt h)
        (List.pairwise_map.2 (preMatches_pairwise_idx M patterns msg lastCmd))
    exact ((hperm.map (fun m => m.idx)).nodup_iff).2 hnd
  · exact hsorted.imp (fun h => by
      rcases h with h | ⟨h, _⟩
      · exact le_of_lt h
      · exact le_of_eq h.symm)
  · refine List.Pairwise.imp ?_ hsorted
    intro a b h
    rcases h with h | ⟨_, h⟩
    · intro heq
      have h' : b.confidence < a.confidence := h
      rw [heq] at h'
      exact absurd h' (lt_irrefl _)
    · exact fun _ => h

/-- C10: `get_quick_fix` returns a fix iff `find_fixes` returns a match
(for a database whose entries all carry at least one fix, as the default
database does); in that case it returns the first fix of the top match.
Every constructed confidence is at least `0.7 > 0.6`, so the threshold
never turns an existing match into `None`. -/
theorem c10_quick_fix (M : Str → Str → Bool) (patterns : List PatternEntry)
    (msg : Str) (lastCmd : Option Str)
    (hfix : ∀ e ∈ patterns, e.fixes ≠ []) :
    ((getQuickFix M patterns msg lastCmd).isSome = true ↔
      findFixes M patterns msg lastCmd ≠ []) ∧
    (∀ m rest, findFixes M patterns msg lastCmd = m :: rest →
      ∃ f, m.fixes.head? = some f ∧
        getQuickFix M patterns msg lastCmd = some f) ∧
    (∀ m ∈ findFixes M patterns msg lastCmd, (7 : ℚ) / 10 ≤ m.confidence) := by
  have hconf : ∀ m ∈ findFixes M patterns msg lastCmd,
      (7 : ℚ) / 10 ≤ m.confidence := by
    intro m hm
    have hperm := sortDescBy_perm (fun m => m.confidence)
      (preMatches M patterns msg lastCmd)
    rcases mem_preMatches.1 (hperm.mem_iff.1 hm) with ⟨i, e, _, _, rfl⟩
    exact calcConfidence_ge e.pattern msg lastCmd
  have hfixes : ∀ m ∈ findFixes M patterns msg lastCmd, m.fixes ≠ [] := by
    intro m hm
    have hperm := sortDescBy_perm (fun m => m.confidence)
      (preMatches M patterns msg lastCmd)
    rcases mem_preMatches.1 (hperm.mem_iff.1 hm) with ⟨i, e, he, _, rfl⟩
    exact hfix e (List.getElem?_mem he)
  cases hff : findFixes M patterns msg lastCmd with
  | nil =>
    refine ⟨by simp [getQuickFix, hff], ?_, by simp⟩
    intro m rest h
    cases h
  | cons m rest =>
    have hm : m ∈ findFixes M patterns msg lastCmd := by
      rw [hff]
      exact List.mem_cons_self _ _
    have h610 : (6 : ℚ) / 10 < m.confidence :=
      lt_of_lt_of_le (by norm_num) (hconf m hm)
    obtain ⟨f, hf⟩ : ∃ f, m.fixes.head? = some f := by
      cases hmf : m.fixes with
      | nil => exact absurd hmf (hfixes m hm)
      | cons a l => exact ⟨a, rfl⟩
    have hq : getQuickFix M patterns msg lastCmd = some f := by
      simp only [getQuickFix, hff]
      rw [if_pos h610, hf]
    refine ⟨by simp [hq], ?_, hff ▸ hconf⟩
    intro m' rest' h
    have hm' : m' = m := by
      injection h with h1 h2
      exact h1.symm
    subst hm'
    exact ⟨f, hf, hq⟩

/-- The first entry of the default error database
(`ErrorFixer._create_default_database`). -/
def permissionEntry : PatternEntry :=
  ⟨("permission denied".toList), ("permissions".toList),
   [("Try using sudo: sudo <command>".toList),
    ("Check file permissions: ls -l <file>".toList),
    ("Change permissions: chmod +x <file>".toList)],
   ("Permission error when executing command".toList)⟩

/-- The default error database written by
`ErrorFixer._create_default_database`. -/
def defaultPatterns : List PatternEntry :=
  [permissionEntry,
   ⟨("command not found".toList), ("not_found".toList),
    [("Install the command using your package manager".toList),
     ("Check if the command is in your PATH: echo $PATH".toList),
     ("Try using the full path to the executable".toList)],
    ("Command not found in PATH".toList)⟩,
   ⟨("No such file or directory".toList), ("file_not_found".toList),
    [("Check the file path: ls <directory>".toList),
     ("Create the directory: mkdir -p <directory>".toList),
     ("Verify you\x27re in the correct directory: pwd".toList)],
    ("File or directory does not exist".toList)⟩,
   ⟨("git.*Your local changes.*would be overwritten".toList), ("git".toList),
    [("Stash your changes: git stash".toList),
     ("Commit your changes: git add . && git commit -m \x27message\x27".toList),
     ("Discard changes: git checkout -- .".toList)],
    ("Git merge/pull would overwrite local changes".toList)⟩,
   ⟨("git.*fatal: not a git repository".toList), ("git".toList),
    [("Initialize git repository: git init".toList),
     ("Clone a repository: git clone <url>".toList),
     ("Navigate to a git repository directory".toList)],
    ("Not inside a git repository".toList)⟩,
   ⟨("npm.*EACCES.*permission denied".toList), ("npm".toList),
    [("Fix npm permissions: sudo chown -R $USER ~/.npm".toList),
     ("Use npx instead of global install".toList),
     ("Configure npm to use a different directory".toList)],
    ("NPM permission error".toList)⟩,
   ⟨("pip.*externally-managed-environment".toList), ("python".toList),
    [("Use a virtual environment: python -m venv venv && source venv/bin/activate".toList),
     ("Use pipx for tools: pipx install <package>".toList),
     ("Use --break-system-packages (not recommended)".toList)],
    ("PIP externally managed environment (PEP 668)".toList)⟩,
   ⟨("docker.*Cannot connect to the Docker daemon".toList), ("docker".toList),
    [("Start Docker daemon: sudo systemctl start docker".toList),
     ("Add user to docker group: sudo usermod -aG docker $USER".toList),
     ("Check Docker status: sudo systemctl status docker".toList)],
    ("Cannot connect to Docker daemon".toList)⟩,
   ⟨("disk.*full|No space left on device".toList), ("disk".toList),
    [("Check disk usage: df -h".toList),
     ("Find large files: du -sh * | sort -h".toList),
     ("Clean package cache (Ubuntu/Debian): sudo apt-get clean".toList),
     ("Clean Docker: docker system prune -a".toList)],
    ("Disk full error".toList)⟩,
   ⟨("port.*already in use".toList), ("network".toList),
    [("Find process using port: lsof -i :<port>".toList),
     ("Kill process: kill -9 <pid>".toList),
     ("Use a different port in your configuration".toList)],
    ("Port already in use".toList)⟩]

/-- A concrete matcher accepting every pattern, for witnesses. -/
def matchAll : Str → Str → Bool := fun _ _ => true

/-- Witness for C9 at the default database's first pattern. -/
theorem c9_find_fixes_witness :
    defaultPatterns[0]? = some permissionEntry ∧
    matchAll permissionEntry.pattern [] = true ∧
    ∃ m ∈ findFixes matchAll defaultPatterns [] none, m.idx = 0 :=
  ⟨rfl, rfl, (c9_find_fixes matchAll defaultPatterns [] none).2.1
    0 permissionEntry rfl rfl⟩

/-- Witness for C10 at the default database. -/
theorem c10_quick_fix_witness :
    (∀ e ∈ defaultPatterns, e.fixes ≠ []) ∧
    ((getQuickFix matchAll defaultPatterns [] none).isSome = true ↔
      findFixes matchAll defaultPatterns [] none ≠ []) :=
  ⟨by decide, (c10_quick_fix matchAll defaultPatterns [] none (by decide)).1⟩

end SmartCli
